import Mathlib

set_option maxRecDepth 8000

/-! Verification development for the galaplate CLI scaffolding pipeline
(cmd/galaplate/main.go).  The Go source is shallowly embedded: strings are
lists of characters, filesystem paths are lists of path segments, and the
side-effecting pipeline stages are modelled as pure functions producing
explicit lists of filesystem actions. -/

namespace Galaplate

/-! ### Basic string machinery (Go strings package, specialised) -/

/-- Go strings.Split with a one-character separator.  Split("", sep) is
a single empty field, exactly as in Go. -/
def splitCh (sep : Char) : List Char → List (List Char)
  | [] => [[]]
  | c :: rest =>
    if c = sep then [] :: splitCh sep rest
    else
      match splitCh sep rest with
      | [] => [[c]]
      | g :: gs => (c :: g) :: gs

/-- strings.Split(name, "/") as used on tar header names. -/
def splitSlash (s : String) : List String :=
  (splitCh '/' s.data).map (fun l => String.mk l)

/-- Boolean check that pat is a leading segment of s (strings.HasPrefix). -/
def startsWithCh : List Char → List Char → Bool
  | [], _ => true
  | _ :: _, [] => false
  | p :: ps, c :: cs => if p = c then startsWithCh ps cs else false

/-- strings.HasSuffix on character lists. -/
def hasSuffixCh (pat s : List Char) : Bool :=
  startsWithCh pat.reverse s.reverse

/-- strings.Contains on character lists. -/
def isSubstrCh (pat : List Char) : List Char → Bool
  | [] => startsWithCh pat []
  | c :: rest => startsWithCh pat (c :: rest) || isSubstrCh pat rest

/-- Recursion core of strings.ReplaceAll.  The fuel argument only bounds
the recursion depth (one unit per examined position); every call supplies
at least the length of the scanned list, which is always sufficient
because each step consumes at least one character. -/
def replaceAllGo (pat repl : List Char) : Nat → List Char → List Char
  | _, [] => []
  | 0, s => s
  | fuel + 1, c :: rest =>
    if pat ≠ [] ∧ startsWithCh pat (c :: rest) = true then
      repl ++ replaceAllGo pat repl fuel ((c :: rest).drop pat.length)
    else
      c :: replaceAllGo pat repl fuel rest

/-- strings.ReplaceAll: replace every non-overlapping occurrence of pat,
scanning left to right.  All call sites in the Go source use a non-empty
pattern. -/
def replaceAllCh (pat repl s : List Char) : List Char :=
  replaceAllGo pat repl s.length s

/-- strings.TrimSuffix on strings. -/
def trimSuffixStr (suf s : String) : String :=
  if hasSuffixCh suf.data s.data then
    String.mk (s.data.take (s.data.length - suf.data.length))
  else s

/-! ### Path cleaning (path/filepath.Clean and Join, on segment lists)

filepath.Join concatenates its non-empty arguments with the separator and
runs filepath.Clean on the result.  On a segment list, cleaning removes
empty and dot segments and resolves dot-dot segments against preceding
ones; for an absolute path a dot-dot at the root is dropped, for a
relative path leading dot-dot segments are kept. -/

def cleanLoop (isAbs : Bool) (acc : List String) : List String → List String
  | [] => acc.reverse
  | s :: rest =>
    if s = "" ∨ s = "." then cleanLoop isAbs acc rest
    else if s = ".." then
      match acc with
      | [] => if isAbs then cleanLoop isAbs [] rest else cleanLoop isAbs [".."] rest
      | a :: tl => if a = ".." then cleanLoop isAbs (".." :: a :: tl) rest
                   else cleanLoop isAbs tl rest
    else cleanLoop isAbs (s :: acc) rest

/-- Clean a relative segment list (inner filepath.Join of tar path parts). -/
def cleanRel (l : List String) : List String := cleanLoop false [] l

/-- Clean an absolute segment list (outer filepath.Join with the scratch
root). -/
def cleanAbs (l : List String) : List String := cleanLoop true [] l

/-! ### The archive extractor (downloadGitHubRepo's tar loop) -/

/-- Tar entry kinds.  The Go switch handles tar.TypeDir and tar.TypeReg;
every other type flag (symbolic links among them) falls through. -/
inductive TarKind where
  | dir : TarKind
  | reg : TarKind
  | link : TarKind
  | other : TarKind
deriving DecidableEq, Repr

/-- One tar archive entry: stored path, type flag, payload and stored
permission bits. -/
structure TarEntry where
  name : String
  kind : TarKind
  content : List Char
  mode : Nat
deriving DecidableEq, Repr

/-- A filesystem action issued by the pipeline.  Paths are absolute
segment lists. -/
inductive Action where
  | mkdirAll (p : List String) (mode : Nat) : Action
  | createF (p : List String) : Action
  | writeF (p : List String) (content : List Char) (mode : Nat) : Action
  | copyInto (p : List String) (content : List Char) : Action
  | chmodF (p : List String) (mode : Nat) : Action
deriving DecidableEq, Repr

/-- The path an action touches as its primary target. -/
def pathOf : Action → List String
  | .mkdirAll p _ => p
  | .createF p => p
  | .writeF p _ _ => p
  | .copyInto p _ => p
  | .chmodF p _ => p

/-- The per-entry body of the extraction loop.  parts := Split(name, "/");
entries with at most one part are skipped; otherwise the on-disk path is
filepath.Join(tempDir, filepath.Join(parts[1:]...)).  Directory entries
get MkdirAll(path, mode); regular files get MkdirAll(Dir(path), 0755),
Create, io.Copy and Chmod(mode); all other entry kinds fall through the
switch and produce nothing.  No path-safety check is performed. -/
def extractEntryActions (root : List String) (e : TarEntry) : List Action :=
  let parts := splitSlash e.name
  if parts.length ≤ 1 then []
  else
    let path := cleanAbs (root ++ cleanRel (parts.drop 1))
    match e.kind with
    | .dir => [Action.mkdirAll path e.mode]
    | .reg => [Action.mkdirAll path.dropLast 0o755,
               Action.createF path,
               Action.copyInto path e.content,
               Action.chmodF path e.mode]
    | _ => []

/-- Whole-archive extraction into the scratch root. -/
def extractActions (root : List String) (entries : List TarEntry) : List Action :=
  entries.flatMap (extractEntryActions root)

/-! ### Project options (ProjectOptions struct) -/

/-- The parsed options of the create operation. -/
structure ProjectOptions where
  name : String
  template : String
  dbType : String
  modName : String
  noGit : Bool
  force : Bool
deriving DecidableEq, Repr

/-! ### The template rewriter (copyFile and replaceModuleReferences) -/

/-- The template's default module root, github.com/galaplate/galaplate. -/
def rootCh : List Char := "github.com/galaplate/galaplate".data

/-- Placeholder replacement chain of the .template branch of copyFile:
four strings.ReplaceAll calls in source order. -/
def applyTemplateReplacements (content : List Char) (opts : ProjectOptions) : List Char :=
  let c1 := replaceAllCh "\x7b\x7bPROJECT_NAME\x7d\x7d".data opts.name.data content
  let c2 := replaceAllCh "\x7b\x7bMODULE_NAME\x7d\x7d".data opts.modName.data c1
  let c3 := replaceAllCh "\x7b\x7bDB_TYPE\x7d\x7d".data opts.dbType.data c2
  replaceAllCh "\x7b\x7bGALAPLATE_CORE_VERSION\x7d\x7d".data "v0.0.0".data c3

/-- The module-declaration literal replaced in go.mod. -/
def goModLit : List Char := "module github.com/galaplate/galaplate".data

/-- The go.mod branch of copyFile: strings.ReplaceAll of the literal
module-declaration string with "module " plus the new module name. -/
def goModRewrite (content : List Char) (modName : String) : List Char :=
  replaceAllCh goModLit ("module ".data ++ modName.data) content

/-- ASCII approximation of the word characters Go's regexp template
expansion accepts in a $name reference (unicode letters, digits and
underscore; all inputs reasoned about here are ASCII). -/
def isWordChar (c : Char) : Bool :=
  ('a' ≤ c && c ≤ 'z') || ('A' ≤ c && c ≤ 'Z') || ('0' ≤ c && c ≤ '9') || c = '_'

def isDigitCh (c : Char) : Bool := '0' ≤ c && c ≤ '9'

def digitsToNat (l : List Char) : Nat :=
  l.foldl (fun a c => a * 10 + (c.toNat - '0'.toNat)) 0

/-- The value substituted for a capture reference: $0 is the whole match,
$1 the single capture group of the pattern, any other index or name is
out of range and expands to nothing (Go regexp.Expand). -/
def groupValue (m0 cap : List Char) (name : List Char) : List Char :=
  if name.all isDigitCh then
    let n := digitsToNat name
    if n = 0 then m0 else if n = 1 then cap else []
  else []

/-- Recursion core of Go regexp template expansion (Regexp.expand) for
the replacement string of ReplaceAllString, specialised to one capture
group: a dollar introduces a reference; a doubled dollar is a literal
dollar; a braced or bare name of word characters is resolved by
groupValue; a malformed reference leaves the dollar as raw text.  Fuel
only bounds recursion depth; each step consumes at least one character. -/
def expandGo (m0 cap : List Char) : Nat → List Char → List Char
  | _, [] => []
  | 0, t => t
  | fuel + 1, c :: rest =>
    if c = '$' then
      match rest with
      | [] => ['$']
      | d :: r2 =>
        if d = '$' then '$' :: expandGo m0 cap fuel r2
        else if d = '{' then
          let name := r2.takeWhile isWordChar
          match r2.drop name.length with
          | c2 :: r3 =>
            if c2 = '}' ∧ name ≠ [] then groupValue m0 cap name ++ expandGo m0 cap fuel r3
            else '$' :: expandGo m0 cap fuel (d :: r2)
          | [] => '$' :: expandGo m0 cap fuel (d :: r2)
        else
          let name := (d :: r2).takeWhile isWordChar
          if name = [] then '$' :: expandGo m0 cap fuel (d :: r2)
          else groupValue m0 cap name ++ expandGo m0 cap fuel ((d :: r2).drop name.length)
    else c :: expandGo m0 cap fuel rest

/-- Go regexp template expansion of a replacement template against match
text m0 and capture cap. -/
def expandTemplate (m0 cap t : List Char) : List Char :=
  expandGo m0 cap t.length t

/-- Attempt the regular expression "github\.com/galaplate/galaplate([^"]*)"
at the head of s.  On success returns the whole matched text, the capture
and the remainder of s after the match. -/
def matchAt (s : List Char) : Option (List Char × List Char × List Char) :=
  if startsWithCh ('"' :: rootCh) s then
    let rest := s.drop (rootCh.length + 1)
    let cap := rest.takeWhile (fun c => c != '"')
    match rest.drop cap.length with
    | c :: rem => if c = '"' then some ('"' :: rootCh ++ cap ++ ['"'], cap, rem) else none
    | [] => none
  else none

/-- Recursion core of ReplaceAllString: scan left to right, replacing
each leftmost non-overlapping match by the expanded template.  Fuel only
bounds recursion depth; a match consumes at least the quoted module root. -/
def regexGo (newModule : List Char) : Nat → List Char → List Char
  | _, [] => []
  | 0, s => s
  | fuel + 1, c :: rest =>
    match matchAt (c :: rest) with
    | some (m0, cap, rem) =>
        expandTemplate m0 cap ('"' :: newModule ++ ['$', '1', '"']) ++
          regexGo newModule fuel rem
    | none => c :: regexGo newModule fuel rest

/-- replaceModuleReferences, step one: re.ReplaceAllString(content,
quote+newModule+dollar-one+quote). -/
def regexReplaceAll (newModule s : List Char) : List Char :=
  regexGo newModule s.length s

/-- replaceModuleReferences from the Go source: the regex rewrite of
quoted import paths followed by the catch-all strings.ReplaceAll of the
old module root. -/
def replaceModuleReferences (content : List Char) (newModule : String) : List Char :=
  replaceAllCh rootCh newModule.data (regexReplaceAll newModule.data content)

/-! ### Rule dispatch of copyFile -/

/-- The four content-transformation rules of copyFile. -/
inductive RewriteRule where
  | template : RewriteRule
  | manifest : RewriteRule
  | sourceRef : RewriteRule
  | passthrough : RewriteRule
deriving DecidableEq, Repr

/-- Which branch of copyFile handles a file, mirroring the nested
conditionals of the source: the .template suffix test first, then the
combined go.mod-or-.go test with the go.mod base-name test inside it,
else the plain byte copy.  The Go code tests the full source path, but
neither suffix contains a path separator, so testing the base name is
equivalent. -/
def ruleFired (srcName : String) : RewriteRule :=
  if hasSuffixCh ".template".data srcName.data then .template
  else if srcName = "go.mod" ∨ hasSuffixCh ".go".data srcName.data then
    (if srcName = "go.mod" then .manifest else .sourceRef)
  else .passthrough

/-- The spec's description of rule selection: four mutually exclusive
name patterns checked in the fixed priority order template-suffix,
manifest, source-reference, passthrough.  Stated from the spec's words
for comparison with ruleFired. -/
def specPriorityRule (srcName : String) : RewriteRule :=
  if hasSuffixCh ".template".data srcName.data then .template
  else if srcName = "go.mod" then .manifest
  else if hasSuffixCh ".go".data srcName.data then .sourceRef
  else .passthrough

/-- strip the .template suffix from the destination's base name
(strings.TrimSuffix(dest, ".template") acts on the final segment). -/
def stripTemplateSegs (p : List String) : List String :=
  match p.getLast? with
  | none => p
  | some s => p.dropLast ++ [trimSuffixStr ".template" s]

/-- The actions of one copyFile call: create the parent directory chain,
open the destination with os.Create (this materialises an empty file at
dest before any rule is examined), then run the branch selected by
ruleFired.  The template branch writes the substituted text to the
suffix-stripped path; the manifest and source-reference branches write
the rewritten text back to dest; the passthrough branch copies the bytes
into the created file.  The source file's permission bits are never read. -/
def copyFileActions (srcName : String) (dest : List String) (content : List Char)
    (opts : ProjectOptions) : List Action :=
  Action.mkdirAll dest.dropLast 0o755 ::
  Action.createF dest ::
  (match ruleFired srcName with
   | .template => [Action.writeF (stripTemplateSegs dest)
                     (applyTemplateReplacements content opts) 0o644]
   | .manifest => [Action.writeF dest (goModRewrite content opts.modName) 0o644]
   | .sourceRef => [Action.writeF dest (replaceModuleReferences content opts.modName) 0o644]
   | .passthrough => [Action.copyInto dest content])

/-! ### The exclusion-aware tree copier (copyProjectFiles) -/

/-- Directory names excluded by their first path segment. -/
def excludeDirsL : List String :=
  ["cli", ".git", "node_modules", "tmp", "storage", "cmd", "test-api", ".opencode"]

/-- Base names excluded wherever they occur. -/
def excludeFilesL : List String :=
  ["main", "server", "galaplate",
   "AGENTS.md", "CORE_EXTRACTION_PLAN.md", "IMPLEMENTATION_ROADMAP.md",
   "PHASE1_PROGRESS_REPORT.md", "WORKFLOW_EXAMPLE.md"]

mutual
/-- A scratch-tree node: a regular file with content and stored mode, or
a directory with its children. -/
inductive FsTree where
  | file (name : String) (content : List Char) (mode : Nat) : FsTree
  | dir (name : String) (mode : Nat) (children : FsForest) : FsTree

/-- A list of sibling scratch-tree nodes. -/
inductive FsForest where
  | nil : FsForest
  | cons (t : FsTree) (f : FsForest) : FsForest
end

/-- Base name of a scratch-tree node. -/
def nameOf : FsTree → String
  | .file n _ _ => n
  | .dir n _ _ => n

/-- The first path segment of an entry at rel ++ [n] relative to the
scratch root (pathParts[0] in the source). -/
def firstSegOf (rel : List String) (n : String) : String :=
  match rel with
  | [] => n
  | a :: _ => a

mutual
/-- filepath.Walk body of copyProjectFiles on one node located at
rel ++ [name] relative to the scratch root: a first path segment naming
an excluded directory skips the node (for a directory, the whole subtree
is skipped without descending, filepath.SkipDir); an excluded base name
skips just the node — for a directory only its mkdir is suppressed, the
walk still descends, as returning nil from the Go callback does.
Emitted destination paths are relative to the destination root. -/
def walkTree (opts : ProjectOptions) (rel : List String) : FsTree → List Action
  | .file n content _mode =>
    if firstSegOf rel n ∈ excludeDirsL then []
    else if n ∈ excludeFilesL then []
    else copyFileActions n (rel ++ [n]) content opts
  | .dir n mode children =>
    if firstSegOf rel n ∈ excludeDirsL then []
    else
      (if n ∈ excludeFilesL then [] else [Action.mkdirAll (rel ++ [n]) mode]) ++
      walkForest opts (rel ++ [n]) children

/-- Walk a list of siblings. -/
def walkForest (opts : ProjectOptions) (rel : List String) : FsForest → List Action
  | .nil => []
  | .cons t f => walkTree opts rel t ++ walkForest opts rel f
end

/-! ### Filesystem state and action semantics

The destination filesystem is a finite map from absolute segment paths to
nodes.  Action application mirrors the POSIX semantics the Go calls rely
on: MkdirAll leaves every existing entry alone; os.Create truncates an
existing file but keeps its permission bits, and creates a missing file
with the process-default creation mode; os.WriteFile's permission
argument takes effect only when the file did not yet exist; no operation
ever removes an entry. -/

/-- A materialised filesystem node. -/
inductive Node where
  | dirN (mode : Nat) : Node
  | fileN (content : List Char) (mode : Nat) : Node
deriving DecidableEq, Repr

/-- Finite-map filesystem state. -/
def FsMap := List (List String × Node)

def lookupFS (fs : FsMap) (p : List String) : Option Node :=
  match fs with
  | [] => none
  | (q, n) :: rest => if q = p then some n else lookupFS rest p

def setFS (fs : FsMap) (p : List String) (n : Node) : FsMap :=
  match fs with
  | [] => [(p, n)]
  | (q, m) :: rest => if q = p then (p, n) :: rest else (q, m) :: setFS rest p n

/-- All the non-empty ancestor paths of p, p itself included. -/
def ancestorsOf (p : List String) : List (List String) :=
  (List.range p.length).map (fun i => p.take (i + 1))

/-- Create one directory if nothing is at the path yet. -/
def ensureDir (fs : FsMap) (p : List String) (mode : Nat) : FsMap :=
  match lookupFS fs p with
  | some _ => fs
  | none => setFS fs p (Node.dirN mode)

/-- Apply one action to the filesystem.  dm is the process-default file
creation mode (0666 adjusted by the umask). -/
def applyAct (dm : Nat) (fs : FsMap) : Action → FsMap
  | .mkdirAll p mode => (ancestorsOf p).foldl (fun acc q => ensureDir acc q mode) fs
  | .createF p =>
    match lookupFS fs p with
    | some (Node.fileN _ m0) => setFS fs p (Node.fileN [] m0)
    | some (Node.dirN _) => fs
    | none => setFS fs p (Node.fileN [] dm)
  | .writeF p c mode =>
    match lookupFS fs p with
    | some (Node.fileN _ m0) => setFS fs p (Node.fileN c m0)
    | some (Node.dirN _) => fs
    | none => setFS fs p (Node.fileN c mode)
  | .copyInto p c =>
    match lookupFS fs p with
    | some (Node.fileN _ m0) => setFS fs p (Node.fileN c m0)
    | _ => fs
  | .chmodF p mode =>
    match lookupFS fs p with
    | some (Node.fileN c _) => setFS fs p (Node.fileN c mode)
    | some (Node.dirN _) => setFS fs p (Node.dirN mode)
    | none => fs

def applyActs (dm : Nat) : FsMap → List Action → FsMap
  | fs, [] => fs
  | fs, a :: rest => applyActs dm (applyAct dm fs a) rest

/-- Every path an action may write to. -/
def touchedOf : Action → List (List String)
  | .mkdirAll p _ => ancestorsOf p
  | .createF p => [p]
  | .writeF p _ _ => [p]
  | .copyInto p _ => [p]
  | .chmodF p _ => [p]

def touchedAll (acts : List Action) : List (List String) :=
  acts.flatMap touchedOf

/-! ### The orchestrator (handleNewProject and createProjectFromGitHub) -/

/-- Observable pipeline events: the network fetch, scratch-directory
actions of the extractor, destination-directory actions of the copier,
and the two best-effort finalisation steps. -/
inductive PipeAction where
  | fetch (url : String) : PipeAction
  | scratch (a : Action) : PipeAction
  | dest (a : Action) : PipeAction
  | gitInit : PipeAction
  | goModTidy : PipeAction
deriving DecidableEq, Repr

/-- Rebase a copier action (destination-relative) under the project
directory.  filepath.Join(destDir, relPath) distributes over the parent,
strip and target paths computed inside copyFile. -/
def prependPath (base : List String) : Action → Action
  | .mkdirAll p mode => .mkdirAll (base ++ p) mode
  | .createF p => .createF (base ++ p)
  | .writeF p c mode => .writeF (base ++ p) c mode
  | .copyInto p c => .copyInto (base ++ p) c
  | .chmodF p mode => .chmodF (base ++ p) mode

/-- The archive URL built for owner galaplate, repository galaplate,
branch main. -/
def githubUrl : String :=
  "https://github.com/galaplate/galaplate/archive/refs/heads/main.tar.gz"

/-- All destination-directory actions of one create run: MkdirAll of the
project directory followed by the walk of the extracted scratch tree. -/
def destActions (opts : ProjectOptions) (f : FsForest) : List Action :=
  Action.mkdirAll [opts.name] 0o755 ::
    (walkForest opts [] f).map (prependPath [opts.name])

/-- handleNewProject after argument parsing: the os.Stat pre-existence
check guards everything; with an existing destination and no force flag
the call fails before the download, the extraction or any copy.
Otherwise the pipeline fetches the archive, extracts it into the scratch
root, creates the project directory, copies the scratch tree into it and
runs the finalisation steps.  The extractor populates the scratch
directory from the tar entries; the copier then walks the resulting
scratch tree, which this model receives as the forest f. -/
def handleNewProjectModel (destExists : Bool) (opts : ProjectOptions)
    (entries : List TarEntry) (scratchRoot : List String) (f : FsForest) :
    Except String (List PipeAction) :=
  if destExists = true ∧ opts.force = false then
    Except.error ("directory '" ++ opts.name ++ "' already exists. Use --force to overwrite")
  else
    Except.ok
      (PipeAction.fetch githubUrl ::
        ((extractActions scratchRoot entries).map PipeAction.scratch ++
         (destActions opts f).map PipeAction.dest ++
         (if opts.noGit then [] else [PipeAction.gitInit]) ++
         [PipeAction.goModTidy]))

/-- Whether a pipeline run proceeded past the pre-existence check. -/
def pipelineOk : Except String (List PipeAction) → Bool
  | .ok _ => true
  | .error _ => false

/-! ## Lemmas about the string machinery -/

theorem startsWithCh_iff (p s : List Char) :
    startsWithCh p s = true ↔ ∃ t, s = p ++ t := by
  induction p generalizing s with
  | nil => simp [startsWithCh]
  | cons a ps ih =>
    cases s with
    | nil =>
      simp only [startsWithCh, List.cons_append]
      constructor
      · intro h; exact absurd h (by simp)
      · rintro ⟨t, ht⟩; exact absurd ht (by simp)
    | cons c cs =>
      simp only [startsWithCh]
      by_cases hac : a = c
      · subst hac
        rw [if_pos rfl, ih]
        constructor
        · rintro ⟨t, rfl⟩; exact ⟨t, rfl⟩
        · rintro ⟨t, ht⟩
          refine ⟨t, ?_⟩
          have := (List.cons.injEq .. ▸ ht)
          rw [List.cons_append] at ht
          exact (List.cons.inj ht).2
      · rw [if_neg hac]
        constructor
        · intro h; exact absurd h (by simp)
        · rintro ⟨t, ht⟩
          rw [List.cons_append] at ht
          exact absurd (List.cons.inj ht).1 fun h => hac h.symm

theorem startsWithCh_append (p t : List Char) :
    startsWithCh p (p ++ t) = true :=
  (startsWithCh_iff p (p ++ t)).mpr ⟨t, rfl⟩

theorem head_eq_of_startsWithCh {a b : Char} {p q l : List Char}
    (hp : startsWithCh (a :: p) l = true) (hq : startsWithCh (b :: q) l = true) :
    a = b := by
  obtain ⟨t1, h1⟩ := (startsWithCh_iff _ _).mp hp
  obtain ⟨t2, h2⟩ := (startsWithCh_iff _ _).mp hq
  rw [h1] at h2
  simpa using (List.cons.inj h2).1

theorem isSubstrCh_cons (pat : List Char) (c : Char) (rest : List Char) :
    isSubstrCh pat (c :: rest) = (startsWithCh pat (c :: rest) || isSubstrCh pat rest) := rfl

/-- A pattern occurring nowhere in s leaves s unchanged, for any fuel. -/
theorem replaceAllGo_id {pat repl : List Char} :
    ∀ (fuel : Nat) (s : List Char), isSubstrCh pat s = false →
      replaceAllGo pat repl fuel s = s := by
  intro fuel
  induction fuel with
  | zero => intro s _; cases s <;> rfl
  | succ f ih =>
    intro s hs
    cases s with
    | nil => rfl
    | cons c rest =>
      rw [isSubstrCh_cons, Bool.or_eq_false_iff] at hs
      rw [replaceAllGo, if_neg (by intro h; rw [h.2] at hs; exact absurd hs.1 (by simp)),
        ih rest hs.2]

/-- The fuel argument is irrelevant once it covers the list length. -/
theorem replaceAllGo_irrel {pat repl : List Char} (hpat : pat ≠ []) :
    ∀ (f1 f2 : Nat) (s : List Char), s.length ≤ f1 → s.length ≤ f2 →
      replaceAllGo pat repl f1 s = replaceAllGo pat repl f2 s := by
  intro f1
  induction f1 with
  | zero =>
    intro f2 s h1 _
    cases s with
    | nil => cases f2 <;> rfl
    | cons c rest => simp at h1
  | succ g ih =>
    intro f2 s h1 h2
    cases s with
    | nil => cases f2 <;> rfl
    | cons c rest =>
      cases f2 with
      | zero => simp at h2
      | succ g2 =>
        rw [replaceAllGo, replaceAllGo]
        by_cases hc : pat ≠ [] ∧ startsWithCh pat (c :: rest) = true
        · rw [if_pos hc, if_pos hc]
          have hlp : 0 < pat.length := List.length_pos.mpr hpat
          have hlen : ((c :: rest).drop pat.length).length ≤ rest.length := by
            simp only [List.length_drop, List.length_cons]
            omega
          rw [ih g2 _ (by simp only [List.length_cons] at h1; omega)
            (by simp only [List.length_cons] at h2; omega)]
        · rw [if_neg hc, if_neg hc]
          rw [ih g2 rest (by simp only [List.length_cons] at h1; omega)
            (by simp only [List.length_cons] at h2; omega)]

theorem replaceAllCh_eq_go {pat repl : List Char} (hpat : pat ≠ [])
    {fuel : Nat} {s : List Char} (h : s.length ≤ fuel) :
    replaceAllCh pat repl s = replaceAllGo pat repl fuel s :=
  replaceAllGo_irrel hpat s.length fuel s (Nat.le_refl _) h

/-- strings.ReplaceAll of an absent pattern is the identity. -/
theorem replaceAllCh_id {pat repl s : List Char} (h : isSubstrCh pat s = false) :
    replaceAllCh pat repl s = s :=
  replaceAllGo_id s.length s h

/-- If no occurrence of pat fits inside pre plus all but the last
character of pat, then pat does not start at the head of
pre ++ pat ++ post when pre is non-empty. -/
theorem startsWith_false_of_not_substr {pat : List Char} (hpat : pat ≠ [])
    {c : Char} {pre post : List Char}
    (h : isSubstrCh pat (c :: (pre ++ pat.dropLast)) = false) :
    startsWithCh pat (c :: (pre ++ (pat ++ post))) = false := by
  by_contra hs
  rw [Bool.not_eq_false] at hs
  obtain ⟨t, ht⟩ := (startsWithCh_iff _ _).mp hs
  have hlast := List.dropLast_append_getLast hpat
  have hshape : c :: (pre ++ (pat ++ post))
      = (c :: (pre ++ pat.dropLast)) ++ (pat.getLast hpat :: post) := by
    conv_lhs => rw [← hlast]
    simp
  have hlen : pat.length ≤ (c :: (pre ++ pat.dropLast)).length := by
    have hdl : pat.dropLast.length = pat.length - 1 := by simp
    have hp : 0 < pat.length := List.length_pos.mpr hpat
    simp only [List.length_append, List.length_cons, hdl]
    omega
  have h1 : (c :: (pre ++ (pat ++ post))).take pat.length = pat := by
    rw [ht, List.take_left]
  rw [hshape, List.take_append_of_le_length hlen] at h1
  have hstart : startsWithCh pat (c :: (pre ++ pat.dropLast)) = true := by
    rw [startsWithCh_iff]
    refine ⟨(c :: (pre ++ pat.dropLast)).drop pat.length, ?_⟩
    conv_lhs => rw [← List.take_append_drop pat.length (c :: (pre ++ pat.dropLast))]
    rw [h1]
  rw [isSubstrCh_cons, Bool.or_eq_false_iff] at h
  rw [h.1] at hstart
  exact absurd hstart (by simp)

/-- strings.ReplaceAll on a string holding one marked occurrence of the
pattern: the text before and after the occurrence passes through, and
scanning resumes after the replacement. -/
theorem replaceAllCh_once {pat repl : List Char} (hpat : pat ≠ []) :
    ∀ (pre post : List Char),
      isSubstrCh pat (pre ++ pat.dropLast) = false →
      replaceAllCh pat repl (pre ++ (pat ++ post)) =
        pre ++ (repl ++ replaceAllCh pat repl post) := by
  have hgo : ∀ (fuel : Nat) (pre post : List Char),
      (pre ++ (pat ++ post)).length ≤ fuel →
      isSubstrCh pat (pre ++ pat.dropLast) = false →
      replaceAllGo pat repl fuel (pre ++ (pat ++ post)) =
        pre ++ (repl ++ replaceAllCh pat repl post) := by
    intro fuel
    induction fuel with
    | zero =>
      intro pre post hlen _
      have : 0 < pat.length := List.length_pos.mpr hpat
      simp only [List.length_append] at hlen
      omega
    | succ f ih =>
      intro pre post hlen hsub
      cases pre with
      | nil =>
        obtain ⟨p, ps, rfl⟩ : ∃ p ps, pat = p :: ps := by
          cases pat with
          | nil => exact absurd rfl hpat
          | cons p ps => exact ⟨p, ps, rfl⟩
        simp only [List.nil_append, List.cons_append] at hlen ⊢
        rw [replaceAllGo,
          if_pos (show p :: ps ≠ [] ∧ startsWithCh (p :: ps) (p :: (ps ++ post)) = true from
            ⟨hpat, by rw [show p :: (ps ++ post) = (p :: ps) ++ post from by simp]
                      exact startsWithCh_append _ _⟩)]
        have hdrop : (p :: (ps ++ post)).drop (p :: ps).length = post := by
          rw [show p :: (ps ++ post) = (p :: ps) ++ post from by simp]
          exact List.drop_left _ _
        rw [hdrop]
        have hpost : post.length ≤ f := by
          simp only [List.length_append, List.length_cons] at hlen ⊢
          omega
        rw [← replaceAllCh_eq_go hpat hpost]
      | cons c pre' =>
        simp only [List.cons_append] at hlen hsub ⊢
        have hfalse : startsWithCh pat (c :: (pre' ++ (pat ++ post))) = false :=
          startsWith_false_of_not_substr hpat hsub
        rw [replaceAllGo, if_neg (by intro hcon; rw [hcon.2] at hfalse; simp at hfalse)]
        have hsub' : isSubstrCh pat (pre' ++ pat.dropLast) = false := by
          rw [isSubstrCh_cons, Bool.or_eq_false_iff] at hsub
          exact hsub.2
        have hlen' : (pre' ++ (pat ++ post)).length ≤ f := by
          simp only [List.length_cons] at hlen
          omega
        rw [ih pre' post hlen' hsub']
  intro pre post hsub
  exact hgo (pre ++ (pat ++ post)).length pre post (Nat.le_refl _) hsub

/-! ## Lemmas about the import-path regex rewrite -/

theorem takeWhile_quote_free {suffix : List Char}
    (h : ∀ c ∈ suffix, c ≠ '"') (rest : List Char) :
    (suffix ++ '"' :: rest).takeWhile (fun c => c != '"') = suffix := by
  induction suffix with
  | nil => simp [List.takeWhile]
  | cons a l ih =>
    have ha : (a != '"') = true := by
      simp only [bne_iff_ne, ne_eq]
      exact h a (List.mem_cons_self a l)
    simp only [List.cons_append, List.takeWhile_cons, ha, if_true]
    rw [ih (fun c hc => h c (List.mem_cons_of_mem a hc))]

/-- matchAt succeeds on a quoted module-root import literal, capturing
the quote-free suffix and consuming the whole literal. -/
theorem matchAt_quoted {suffix : List Char} (h : ∀ c ∈ suffix, c ≠ '"') :
    matchAt ('"' :: (rootCh ++ (suffix ++ ['"']))) =
      some ('"' :: rootCh ++ suffix ++ ['"'], suffix, []) := by
  have hshape : '"' :: (rootCh ++ (suffix ++ ['"'])) = ('"' :: rootCh) ++ (suffix ++ ['"']) := by
    simp
  unfold matchAt
  rw [if_pos (by rw [hshape]; exact startsWithCh_append _ _)]
  have hdrop1 : ('"' :: (rootCh ++ (suffix ++ ['"']))).drop (rootCh.length + 1)
      = suffix ++ ['"'] := by
    rw [hshape, show rootCh.length + 1 = ('"' :: rootCh).length from by simp]
    exact List.drop_left _ _
  simp only [hdrop1]
  have htw : (suffix ++ ['"']).takeWhile (fun c => c != '"') = suffix :=
    takeWhile_quote_free h []
  simp only [htw]
  have hdrop2 : (suffix ++ ['"']).drop suffix.length = ['"'] := List.drop_left _ _
  simp only [hdrop2]
  simp

/-- The single-step evaluation of the regex scan on one whole quoted
literal. -/
theorem regexReplaceAll_quoted {m suffix : List Char} (h : ∀ c ∈ suffix, c ≠ '"') :
    regexReplaceAll m ('"' :: (rootCh ++ (suffix ++ ['"']))) =
      expandTemplate ('"' :: rootCh ++ suffix ++ ['"']) suffix ('"' :: m ++ ['$', '1', '"']) := by
  unfold regexReplaceAll
  rw [show ('"' :: (rootCh ++ (suffix ++ ['"']))).length
      = (rootCh ++ (suffix ++ ['"'])).length + 1 from by simp]
  rw [regexGo, matchAt_quoted h]
  have hnil : ∀ f : Nat, regexGo m f ([] : List Char) = [] := by
    intro f; cases f <;> rfl
  show expandTemplate ('"' :: rootCh ++ suffix ++ ['"']) suffix ('"' :: m ++ ['$', '1', '"'])
      ++ regexGo m (rootCh ++ (suffix ++ ['"'])).length [] = _
  rw [hnil]
  simp

/-- A string with no quote character contains no regex match, so the
scan is the identity. -/
theorem regexGo_noquote {m : List Char} :
    ∀ (fuel : Nat) (s : List Char), (∀ c ∈ s, c ≠ '"') →
      regexGo m fuel s = s := by
  intro fuel
  induction fuel with
  | zero => intro s _; cases s <;> rfl
  | succ f ih =>
    intro s hs
    cases s with
    | nil => rfl
    | cons c rest =>
      have hm : matchAt (c :: rest) = none := by
        unfold matchAt
        rw [if_neg]
        intro hstart
        obtain ⟨t, ht⟩ := (startsWithCh_iff _ _).mp hstart
        rw [List.cons_append] at ht
        exact hs c (List.mem_cons_self c rest) (List.cons.inj ht).1
      rw [regexGo, hm, ih rest (fun d hd => hs d (List.mem_cons_of_mem c hd))]

/-- Go template expansion of quote ++ newModule ++ dollar-one ++ quote:
with a dollar-free module name the literal part passes through and the
reference expands to the capture. -/
theorem expandTemplate_module {m0 cap m : List Char} (h : ∀ c ∈ m, c ≠ '$') :
    expandTemplate m0 cap ('"' :: m ++ ['$', '1', '"']) = '"' :: (m ++ (cap ++ ['"'])) := by
  have hgo : ∀ (fuel : Nat) (l : List Char), (∀ c ∈ l, c ≠ '$') →
      (l ++ ['$', '1', '"']).length ≤ fuel →
      expandGo m0 cap fuel (l ++ ['$', '1', '"']) = l ++ (cap ++ ['"']) := by
    intro fuel
    induction fuel with
    | zero =>
      intro l _ hlen
      simp only [List.length_append, List.length_cons, List.length_nil] at hlen
      omega
    | succ f ih =>
      intro l hl hlen
      cases l with
      | nil =>
        simp only [List.nil_append, List.length_cons, List.length_nil] at hlen ⊢
        obtain ⟨k, rfl⟩ : ∃ k, f = k + 2 := ⟨f - 2, by omega⟩
        rfl
      | cons a l' =>
        have ha : a ≠ '$' := hl a (List.mem_cons_self a l')
        simp only [List.cons_append] at hlen ⊢
        simp only [expandGo]
        rw [if_neg ha,
          ih l' (fun c hc => hl c (List.mem_cons_of_mem a hc))
            (by simp only [List.length_append, List.length_cons, List.length_nil] at hlen ⊢; omega)]
  have hq : ∀ c ∈ '"' :: m, c ≠ '$' := by
    intro c hc
    rcases List.mem_cons.mp hc with h1 | h2
    · rw [h1]; decide
    · exact h c h2
  have := hgo (('"' :: m) ++ ['$', '1', '"']).length ('"' :: m) hq (Nat.le_refl _)
  unfold expandTemplate
  simp only [List.cons_append] at this ⊢
  exact this

/-! ## Lemmas about path cleaning -/

theorem cleanLoop_plain (b : Bool) :
    ∀ (l acc : List String), (∀ s ∈ l, s ≠ "" ∧ s ≠ "." ∧ s ≠ "..") →
      cleanLoop b acc l = acc.reverse ++ l := by
  intro l
  induction l with
  | nil => intro acc _; simp [cleanLoop]
  | cons s l' ih =>
    intro acc hl
    obtain ⟨h1, h2, h3⟩ := hl s (List.mem_cons_self s l')
    simp only [cleanLoop]
    rw [if_neg (by simp [h1, h2]), if_neg h3,
      ih (s :: acc) (fun x hx => hl x (List.mem_cons_of_mem s hx))]
    simp

/-! ## Lemmas about filesystem states -/

theorem lookupFS_setFS (fs : FsMap) (p q : List String) (n : Node) :
    lookupFS (setFS fs p n) q = if p = q then some n else lookupFS fs q := by
  induction fs with
  | nil => simp [setFS, lookupFS]
  | cons hd rest ih =>
    obtain ⟨r, m⟩ := hd
    by_cases hrp : r = p
    · subst hrp
      by_cases h : r = q
      · simp [setFS, lookupFS, h]
      · simp [setFS, lookupFS, h]
    · by_cases h : r = q
      · subst h
        have hne : p ≠ r := fun hc => hrp hc.symm
        simp [setFS, lookupFS, hrp, hne]
      · simp [setFS, lookupFS, hrp, h, ih]

theorem lookupFS_ensureDir_ne {fs : FsMap} {p q : List String} {m : Nat}
    (h : p ≠ q) : lookupFS (ensureDir fs p m) q = lookupFS fs q := by
  unfold ensureDir
  cases lookupFS fs p with
  | some n => rfl
  | none => rw [lookupFS_setFS, if_neg h]

theorem lookupFS_foldl_ensure_ne {m : Nat} :
    ∀ (L : List (List String)) (fs : FsMap) (q : List String), q ∉ L →
      lookupFS (L.foldl (fun acc r => ensureDir acc r m) fs) q = lookupFS fs q := by
  intro L
  induction L with
  | nil => intro fs q _; rfl
  | cons r L' ih =>
    intro fs q hq
    rw [List.mem_cons, not_or] at hq
    rw [List.foldl_cons, ih _ _ hq.2, lookupFS_ensureDir_ne (fun hc => hq.1 hc.symm)]

/-- An action leaves every path outside its touched set unchanged. -/
theorem applyAct_untouched {dm : Nat} {fs : FsMap} {a : Action} {q : List String}
    (h : q ∉ touchedOf a) : lookupFS (applyAct dm fs a) q = lookupFS fs q := by
  cases a with
  | mkdirAll p mode =>
    exact lookupFS_foldl_ensure_ne _ _ _ h
  | createF p =>
    have hpq : p ≠ q := Ne.symm (by simpa [touchedOf] using h)
    simp only [applyAct]
    cases lookupFS fs p with
    | some n => cases n <;> simp [lookupFS_setFS, hpq]
    | none => simp [lookupFS_setFS, hpq]
  | writeF p c mode =>
    have hpq : p ≠ q := Ne.symm (by simpa [touchedOf] using h)
    simp only [applyAct]
    cases lookupFS fs p with
    | some n => cases n <;> simp [lookupFS_setFS, hpq]
    | none => simp [lookupFS_setFS, hpq]
  | copyInto p c =>
    have hpq : p ≠ q := Ne.symm (by simpa [touchedOf] using h)
    simp only [applyAct]
    cases lookupFS fs p with
    | some n => cases n <;> simp [lookupFS_setFS, hpq]
    | none => simp [lookupFS_setFS, hpq]
  | chmodF p mode =>
    have hpq : p ≠ q := Ne.symm (by simpa [touchedOf] using h)
    simp only [applyAct]
    cases lookupFS fs p with
    | some n => cases n <;> simp [lookupFS_setFS, hpq]
    | none => simp [lookupFS_setFS, hpq]

theorem applyActs_untouched {dm : Nat} :
    ∀ (acts : List Action) (fs : FsMap) (q : List String), q ∉ touchedAll acts →
      lookupFS (applyActs dm fs acts) q = lookupFS fs q := by
  intro acts
  induction acts with
  | nil => intro fs q _; rfl
  | cons a rest ih =>
    intro fs q hq
    unfold touchedAll at hq
    have h1 : q ∉ touchedOf a := by
      intro hc
      exact hq (List.mem_flatMap.mpr ⟨a, List.mem_cons_self a rest, hc⟩)
    have h2 : q ∉ touchedAll rest := by
      intro hc
      unfold touchedAll at hc
      obtain ⟨x, hx, hqx⟩ := List.mem_flatMap.mp hc
      exact hq (List.mem_flatMap.mpr ⟨x, List.mem_cons_of_mem a hx, hqx⟩)
    rw [applyActs, ih _ _ h2, applyAct_untouched h1]

/-- No action ever removes an entry: existing paths stay present. -/
theorem applyAct_keeps {dm : Nat} {fs : FsMap} {a : Action} {q : List String}
    (h : (lookupFS fs q).isSome = true) :
    (lookupFS (applyAct dm fs a) q).isSome = true := by
  have hset : ∀ (fs' : FsMap) (p : List String) (n : Node),
      (lookupFS fs' q).isSome = true → (lookupFS (setFS fs' p n) q).isSome = true := by
    intro fs' p n hh
    rw [lookupFS_setFS]
    by_cases hpq : p = q
    · rw [if_pos hpq]; rfl
    · rw [if_neg hpq]; exact hh
  cases a with
  | mkdirAll p mode =>
    simp only [applyAct]
    generalize fs = g at h ⊢
    induction (ancestorsOf p) generalizing g with
    | nil => exact h
    | cons r L ih =>
      rw [List.foldl_cons]
      refine ih _ ?_
      unfold ensureDir
      cases lookupFS g r with
      | some n => exact h
      | none => exact hset g r _ h
  | createF p =>
    simp only [applyAct]
    cases lookupFS fs p with
    | some n => cases n with
      | dirN m => exact h
      | fileN c m => exact hset fs p _ h
    | none => exact hset fs p _ h
  | writeF p c mode =>
    simp only [applyAct]
    cases lookupFS fs p with
    | some n => cases n with
      | dirN m => exact h
      | fileN c0 m => exact hset fs p _ h
    | none => exact hset fs p _ h
  | copyInto p c =>
    simp only [applyAct]
    cases lookupFS fs p with
    | some n => cases n with
      | dirN m => exact h
      | fileN c0 m => exact hset fs p _ h
    | none => exact h
  | chmodF p mode =>
    simp only [applyAct]
    cases lookupFS fs p with
    | some n => cases n with
      | dirN m => exact hset fs p _ h
      | fileN c0 m => exact hset fs p _ h
    | none => exact h

theorem applyActs_keeps {dm : Nat} :
    ∀ (acts : List Action) (fs : FsMap) (q : List String),
      (lookupFS fs q).isSome = true →
      (lookupFS (applyActs dm fs acts) q).isSome = true := by
  intro acts
  induction acts with
  | nil => intro fs q h; exact h
  | cons a rest ih =>
    intro fs q h
    exact ih _ _ (applyAct_keeps h)

theorem applyAct_createF_none {dm : Nat} {fs : FsMap} {p : List String}
    (h : lookupFS fs p = none) :
    applyAct dm fs (Action.createF p) = setFS fs p (Node.fileN [] dm) := by
  simp only [applyAct, h]

theorem applyAct_writeF_file {dm : Nat} {fs : FsMap} {p : List String}
    {c c0 : List Char} {m m0 : Nat}
    (h : lookupFS fs p = some (Node.fileN c0 m0)) :
    applyAct dm fs (Action.writeF p c m) = setFS fs p (Node.fileN c m0) := by
  simp only [applyAct, h]

theorem applyAct_writeF_none {dm : Nat} {fs : FsMap} {p : List String}
    {c : List Char} {m : Nat} (h : lookupFS fs p = none) :
    applyAct dm fs (Action.writeF p c m) = setFS fs p (Node.fileN c m) := by
  simp only [applyAct, h]

theorem applyAct_copyInto_file {dm : Nat} {fs : FsMap} {p : List String}
    {c c0 : List Char} {m0 : Nat}
    (h : lookupFS fs p = some (Node.fileN c0 m0)) :
    applyAct dm fs (Action.copyInto p c) = setFS fs p (Node.fileN c m0) := by
  simp only [applyAct, h]

theorem mem_ancestors_length {q p : List String} (h : q ∈ ancestorsOf p) :
    q.length ≤ p.length := by
  unfold ancestorsOf at h
  obtain ⟨i, hi, rfl⟩ := List.mem_map.mp h
  rw [List.length_take]
  exact min_le_right _ _

theorem stripTemplateSegs_length (p : List String) :
    (stripTemplateSegs p).length = p.length := by
  unfold stripTemplateSegs
  cases hp : p.getLast? with
  | none => rfl
  | some s =>
    have hne : p ≠ [] := by
      intro hc; subst hc; simp at hp
    simp only [List.length_append, List.length_dropLast, List.length_cons, List.length_nil]
    have : 0 < p.length := List.length_pos.mpr hne
    omega

/-! ## Claim theorems -/

/-- C1.  The claim states that an archive entry whose reconstructed path
resolves outside the scratch root is rejected with PathSafetyError and
that no file is created outside the root.  The extraction loop of
downloadGitHubRepo performs no such check: for the regular-file entry
named galaplate-main/../../evil.txt, with scratch root /tmp/galaplate-123,
the two dot-dot segments are resolved by filepath.Join and the file is
created at /evil.txt — a path of which the scratch root is not a prefix —
with no error of any kind.  This exhibits the code bug (a tar-slip
vulnerability): the code emits the create/write/chmod actions at a path
outside the scratch root. -/
theorem c1_traversal_bug :
    extractEntryActions ["tmp", "galaplate-123"]
      ⟨"galaplate-main/../../evil.txt", TarKind.reg, "x".data, 420⟩ =
      [Action.mkdirAll [] 0o755, Action.createF ["evil.txt"],
       Action.copyInto ["evil.txt"] "x".data, Action.chmodF ["evil.txt"] 420] ∧
    List.isPrefixOf ["tmp", "galaplate-123"] ["evil.txt"] = false := by
  decide

/-- C2.  The claim states that a template-suffixed source file yields
exactly one destination file, at the suffix-stripped path, and that the
destination holds no entry at the unstripped path.  In copyFile,
os.Create(dest) runs before the .template branch is examined, so an empty
file remains at the unstripped path demo/app.yaml.template (with the
process-default creation mode 0666) next to the processed file
demo/app.yaml.  The marker substitution and suffix stripping themselves
behave as described. -/
theorem c2_template_residue :
    lookupFS (applyActs 0o666 []
        (copyFileActions "app.yaml.template" ["demo", "app.yaml.template"]
          "name: \x7b\x7bPROJECT_NAME\x7d\x7d".data
          ⟨"demo", "api", "postgres", "example.com/demo", false, false⟩))
      ["demo", "app.yaml.template"] = some (Node.fileN [] 0o666) ∧
    lookupFS (applyActs 0o666 []
        (copyFileActions "app.yaml.template" ["demo", "app.yaml.template"]
          "name: \x7b\x7bPROJECT_NAME\x7d\x7d".data
          ⟨"demo", "api", "postgres", "example.com/demo", false, false⟩))
      ["demo", "app.yaml"] = some (Node.fileN "name: demo".data 0o644) := by
  decide

/-- C3 counterexample.  The claim states that go.mod rewriting changes
only the module-declaration line and leaves every other line
byte-identical.  strings.ReplaceAll replaces the literal everywhere: on a
go.mod whose second line is a comment holding the same literal, the
comment line is rewritten as well, so the output differs from the
claim-mandated output that keeps that line intact. -/
theorem c3_cx :
    goModRewrite
        "module github.com/galaplate/galaplate\n// module github.com/galaplate/galaplate too\n".data
        "example.com/demo" =
      "module example.com/demo\n// module example.com/demo too\n".data ∧
    "module example.com/demo\n// module example.com/demo too\n".data ≠
      "module example.com/demo\n// module github.com/galaplate/galaplate too\n".data := by
  decide

/-- C3 amended.  go.mod rewriting substitutes module followed by the new
module identifier for every occurrence of the literal
module github.com/galaplate/galaplate; when the literal occurs exactly
once — on the module-declaration line — only that occurrence changes and
the text before and after it, hence every other line, is byte-identical. -/
theorem c3_amended (pre post : List Char) (modName : String)
    (h1 : isSubstrCh goModLit (pre ++ goModLit.dropLast) = false)
    (h2 : isSubstrCh goModLit post = false) :
    goModRewrite (pre ++ (goModLit ++ post)) modName =
      pre ++ (("module ".data ++ modName.data) ++ post) := by
  unfold goModRewrite
  rw [replaceAllCh_once (by decide) pre post h1, replaceAllCh_id h2]

/-- C3 amended, witness at a concrete go.mod content. -/
theorem c3_amended_w :
    isSubstrCh goModLit ("// header\n".data ++ goModLit.dropLast) = false ∧
    isSubstrCh goModLit "\n\nrequire x v1.0.0\n".data = false ∧
    goModRewrite ("// header\n".data ++ (goModLit ++ "\n\nrequire x v1.0.0\n".data))
        "example.com/demo" =
      "// header\n".data ++ (("module ".data ++ "example.com/demo".data) ++
        "\n\nrequire x v1.0.0\n".data) :=
  ⟨by decide, by decide, c3_amended _ _ _ (by decide) (by decide)⟩

/-- C4.  When the destination exists (os.Stat succeeds) and the force
flag is not set, handleNewProject returns the pre-existing-destination
error before the download, the extraction, the copy or any other side
effect: the pipeline result is the error value and carries no action. -/
theorem c4_preexisting (opts : ProjectOptions) (entries : List TarEntry)
    (scratchRoot : List String) (f : FsForest) (h : opts.force = false) :
    handleNewProjectModel true opts entries scratchRoot f =
      Except.error ("directory '" ++ opts.name ++ "' already exists. Use --force to overwrite") := by
  unfold handleNewProjectModel
  rw [if_pos ⟨rfl, h⟩]

/-- C4 witness at a concrete invocation. -/
theorem c4_preexisting_w :
    (ProjectOptions.mk "demo" "api" "postgres" "demo" false false).force = false ∧
    handleNewProjectModel true (ProjectOptions.mk "demo" "api" "postgres" "demo" false false)
        [] ["tmp", "scratch"] FsForest.nil =
      Except.error ("directory '" ++ "demo" ++ "' already exists. Use --force to overwrite") :=
  ⟨rfl, c4_preexisting _ [] ["tmp", "scratch"] FsForest.nil rfl⟩

/-- C5 counterexample.  The claim states that every archive entry whose
stored path has at least two segments is materialized at the scratch root
joined with the segments after the first.  The extraction switch only
handles directory and regular-file entries: a symbolic-link entry named
galaplate-main/somelink has two segments yet produces no action at all,
so nothing is materialized for it. -/
theorem c5_cx :
    (splitSlash "galaplate-main/somelink").length = 2 ∧
    extractEntryActions ["tmp", "galaplate-123"]
      ⟨"galaplate-main/somelink", TarKind.link, [], 511⟩ = [] := by
  decide

/-- C5 amended.  Entries with at most one stored-path segment are
discarded.  A directory or regular-file entry with two or more segments
is materialized at the scratch root joined with all segments after the
first; the join applies Go path cleaning, so when the remaining segments
are plain names (non-empty, not dot, not dot-dot) and the root is plain,
exactly the one top-level segment is stripped and no other segment is
removed.  Entries of any other kind (symbolic links among them) are
skipped. -/
theorem c5_amended (root : List String) (e e2 : TarEntry)
    (first : String) (rest : List String)
    (hroot : ∀ s ∈ root, s ≠ "" ∧ s ≠ "." ∧ s ≠ "..")
    (hsplit : splitSlash e.name = first :: rest)
    (hne : rest ≠ [])
    (hplain : ∀ s ∈ rest, s ≠ "" ∧ s ≠ "." ∧ s ≠ "..")
    (h2 : (splitSlash e2.name).length ≤ 1) :
    (e.kind = TarKind.dir →
      extractEntryActions root e = [Action.mkdirAll (root ++ rest) e.mode]) ∧
    (e.kind = TarKind.reg →
      extractEntryActions root e =
        [Action.mkdirAll (root ++ rest).dropLast 0o755, Action.createF (root ++ rest),
         Action.copyInto (root ++ rest) e.content, Action.chmodF (root ++ rest) e.mode]) ∧
    extractEntryActions root e2 = [] := by
  have hlen : ¬ (first :: rest).length ≤ 1 := by
    simp only [List.length_cons]
    have := List.length_pos.mpr hne
    omega
  have hpath : cleanAbs (root ++ cleanRel ((first :: rest).drop 1)) = root ++ rest := by
    simp only [List.drop_succ_cons, List.drop_zero]
    unfold cleanRel cleanAbs
    rw [cleanLoop_plain false rest [] hplain]
    simp only [List.reverse_nil, List.nil_append]
    rw [cleanLoop_plain true (root ++ rest) [] (by
      intro s hs
      rcases List.mem_append.mp hs with h | h
      · exact hroot s h
      · exact hplain s h)]
    simp
  refine ⟨?_, ?_, ?_⟩
  · intro hk
    unfold extractEntryActions
    simp only [hsplit, hk, hpath]
    rw [if_neg hlen]
  · intro hk
    unfold extractEntryActions
    simp only [hsplit, hk, hpath]
    rw [if_neg hlen]
  · unfold extractEntryActions
    simp only [h2, if_pos]

/-- C5 amended, witness at a concrete archive entry. -/
theorem c5_amended_w :
    (∀ s ∈ ["tmp", "scratch"], s ≠ "" ∧ s ≠ "." ∧ s ≠ "..") ∧
    splitSlash (TarEntry.mk "top/a/b.txt" TarKind.reg "hi".data 420).name =
      "top" :: ["a", "b.txt"] ∧
    (["a", "b.txt"] : List String) ≠ [] ∧
    (∀ s ∈ ["a", "b.txt"], s ≠ "" ∧ s ≠ "." ∧ s ≠ "..") ∧
    (splitSlash (TarEntry.mk "top" TarKind.dir [] 493).name).length ≤ 1 ∧
    (((TarEntry.mk "top/a/b.txt" TarKind.reg "hi".data 420).kind = TarKind.dir →
      extractEntryActions ["tmp", "scratch"] (TarEntry.mk "top/a/b.txt" TarKind.reg "hi".data 420) =
        [Action.mkdirAll (["tmp", "scratch"] ++ ["a", "b.txt"])
          (TarEntry.mk "top/a/b.txt" TarKind.reg "hi".data 420).mode]) ∧
    ((TarEntry.mk "top/a/b.txt" TarKind.reg "hi".data 420).kind = TarKind.reg →
      extractEntryActions ["tmp", "scratch"] (TarEntry.mk "top/a/b.txt" TarKind.reg "hi".data 420) =
        [Action.mkdirAll ((["tmp", "scratch"] ++ ["a", "b.txt"])).dropLast 0o755,
         Action.createF (["tmp", "scratch"] ++ ["a", "b.txt"]),
         Action.copyInto (["tmp", "scratch"] ++ ["a", "b.txt"])
           (TarEntry.mk "top/a/b.txt" TarKind.reg "hi".data 420).content,
         Action.chmodF (["tmp", "scratch"] ++ ["a", "b.txt"])
           (TarEntry.mk "top/a/b.txt" TarKind.reg "hi".data 420).mode]) ∧
    extractEntryActions ["tmp", "scratch"] (TarEntry.mk "top" TarKind.dir [] 493) = []) :=
  ⟨by decide, by decide, by decide, by decide, by decide,
   c5_amended ["tmp", "scratch"] _ _ "top" ["a", "b.txt"]
     (by decide) (by decide) (by decide) (by decide) (by decide)⟩

/-- C6 counterexample.  The claim states that a quoted import literal
consisting of the default module root and a path suffix is rewritten to
the new module identifier followed by the suffix, for the configured
module identifier.  The replacement template of ReplaceAllString is the
raw concatenation quote + newModule + dollar-one + quote, so a module
identifier containing a dollar is expanded as capture references by Go
regexp template expansion: with module name m$1 the literal
"github.com/galaplate/galaplate/sub/pkg" is rewritten to
"m/sub/pkg/sub/pkg", not to "m$1/sub/pkg" as the claim requires. -/
theorem c6_cx :
    replaceModuleReferences "\"github.com/galaplate/galaplate/sub/pkg\"".data "m$1" =
      "\"m/sub/pkg/sub/pkg\"".data ∧
    "\"m/sub/pkg/sub/pkg\"".data ≠ "\"m$1/sub/pkg\"".data := by
  decide

/-- C6 amended.  For a new module identifier free of the dollar
character, a quoted import literal made of the default module root and a
quote-free suffix is rewritten to the quoted new module identifier with
the suffix preserved verbatim, provided the module root does not occur in
the rewritten literal (otherwise the catch-all pass rewrites it again);
and on content free of quote characters the regex pass is the identity,
so the function reduces to the catch-all strings.ReplaceAll of the old
module root by the new identifier. -/
theorem c6_amended (modName : String) (suffix content : List Char)
    (h1 : ∀ c ∈ modName.data, c ≠ '$')
    (h2 : ∀ c ∈ suffix, c ≠ '"')
    (h3 : isSubstrCh rootCh ('"' :: (modName.data ++ (suffix ++ ['"']))) = false)
    (h4 : ∀ c ∈ content, c ≠ '"') :
    replaceModuleReferences ('"' :: (rootCh ++ (suffix ++ ['"']))) modName =
      '"' :: (modName.data ++ (suffix ++ ['"'])) ∧
    replaceModuleReferences content modName =
      replaceAllCh rootCh modName.data content := by
  constructor
  · unfold replaceModuleReferences
    rw [regexReplaceAll_quoted h2, expandTemplate_module h1]
    exact replaceAllCh_id h3
  · unfold replaceModuleReferences
    unfold regexReplaceAll
    rw [regexGo_noquote content.length content h4]

/-- C6 amended, witness at the concrete literal of the claim. -/
theorem c6_amended_w :
    (∀ c ∈ "github.com/new/new".data, c ≠ '$') ∧
    (∀ c ∈ "/sub/pkg".data, c ≠ '"') ∧
    isSubstrCh rootCh ('"' :: ("github.com/new/new".data ++ ("/sub/pkg".data ++ ['"']))) = false ∧
    (∀ c ∈ "see github.com/galaplate/galaplate docs".data, c ≠ '"') ∧
    (replaceModuleReferences ('"' :: (rootCh ++ ("/sub/pkg".data ++ ['"']))) "github.com/new/new" =
      '"' :: ("github.com/new/new".data ++ ("/sub/pkg".data ++ ['"'])) ∧
    replaceModuleReferences "see github.com/galaplate/galaplate docs".data "github.com/new/new" =
      replaceAllCh rootCh "github.com/new/new".data
        "see github.com/galaplate/galaplate docs".data) :=
  ⟨by decide, by decide, by decide, by decide,
   c6_amended "github.com/new/new" "/sub/pkg".data "see github.com/galaplate/galaplate docs".data
     (by decide) (by decide) (by decide) (by decide)⟩

/-- C7.  Exactly one of the four copyFile rules fires per source file,
selected by the fixed priority order template-suffix, manifest,
source-reference, passthrough: the code's nested conditionals compute the
same rule as the spec's priority chain for every file name; the
template-suffix and source-extension patterns can never both match one
name (their final characters differ), and the template-suffixed Go source
name main.go.template is handled by the template rule. -/
theorem c7_rule_priority :
    (∀ s : String, ruleFired s = specPriorityRule s) ∧
    (∀ s : String, ¬(hasSuffixCh ".template".data s.data = true ∧
                     hasSuffixCh ".go".data s.data = true)) ∧
    ruleFired "main.go.template" = RewriteRule.template := by
  refine ⟨?_, ?_, by decide⟩
  · intro s
    unfold ruleFired specPriorityRule
    by_cases h1 : hasSuffixCh ".template".data s.data = true
    · simp [h1]
    · by_cases h2 : s = "go.mod"
      · simp [h1, h2]
      · by_cases h3 : hasSuffixCh ".go".data s.data = true
        · simp [h1, h2, h3]
        · simp [h1, h2, h3]
  · intro s ⟨ht, hg⟩
    unfold hasSuffixCh at ht hg
    rw [show ".template".data.reverse = 'e' :: "talpmet.".data from by decide] at ht
    rw [show ".go".data.reverse = 'o' :: "g.".data from by decide] at hg
    have := head_eq_of_startsWithCh ht hg
    simp at this

/-- C8.  For every directory name in the exclusion set, any scratch-tree
node carrying that name at the top level is skipped whole: the walk emits
no action for it or for anything below it, the walk of a forest holding
the excluded subtree equals the walk without it, and any node whose first
path segment relative to the scratch root is the excluded name is skipped
wherever it sits — so the copier produces zero destination entries under
the excluded subtree regardless of its depth or contents. -/
theorem c8_exclusion (opts : ProjectOptions) (d : String) (t : FsTree) (f : FsForest)
    (rel : List String) (hd : d ∈ excludeDirsL) (hn : nameOf t = d) :
    walkTree opts [] t = [] ∧
    walkForest opts [] (FsForest.cons t f) = walkForest opts [] f ∧
    (rel.head? = some d → walkTree opts rel t = []) := by
  have h1 : walkTree opts [] t = [] := by
    cases t with
    | file n content mode =>
      simp only [nameOf] at hn
      simp only [walkTree, firstSegOf, hn]
      rw [if_pos hd]
    | dir n mode ch =>
      simp only [nameOf] at hn
      simp only [walkTree, firstSegOf, hn]
      rw [if_pos hd]
  refine ⟨h1, ?_, ?_⟩
  · simp only [walkForest, h1, List.nil_append]
  · intro hrel
    cases rel with
    | nil => simp at hrel
    | cons a rl =>
      have ha : a = d := by simpa using hrel
      cases t with
      | file n content mode =>
        simp only [walkTree, firstSegOf, ha]
        rw [if_pos hd]
      | dir n mode ch =>
        simp only [walkTree, firstSegOf, ha]
        rw [if_pos hd]

/-- C8 witness at a concrete excluded subtree. -/
theorem c8_exclusion_w :
    ("storage" : String) ∈ excludeDirsL ∧
    nameOf (FsTree.dir "storage" 493
      (FsForest.cons (FsTree.file "deep.txt" "a".data 420) FsForest.nil)) = "storage" ∧
    (walkTree (ProjectOptions.mk "demo" "api" "postgres" "demo" false false) []
      (FsTree.dir "storage" 493
        (FsForest.cons (FsTree.file "deep.txt" "a".data 420) FsForest.nil)) = [] ∧
    walkForest (ProjectOptions.mk "demo" "api" "postgres" "demo" false false) []
      (FsForest.cons
        (FsTree.dir "storage" 493
          (FsForest.cons (FsTree.file "deep.txt" "a".data 420) FsForest.nil))
        (FsForest.cons (FsTree.file "keep.txt" "b".data 420) FsForest.nil)) =
      walkForest (ProjectOptions.mk "demo" "api" "postgres" "demo" false false) []
        (FsForest.cons (FsTree.file "keep.txt" "b".data 420) FsForest.nil) ∧
    ((["storage", "sub"] : List String).head? = some "storage" →
      walkTree (ProjectOptions.mk "demo" "api" "postgres" "demo" false false) ["storage", "sub"]
        (FsTree.dir "storage" 493
          (FsForest.cons (FsTree.file "deep.txt" "a".data 420) FsForest.nil)) = [])) :=
  ⟨by decide, by decide,
   c8_exclusion (ProjectOptions.mk "demo" "api" "postgres" "demo" false false) "storage"
     (FsTree.dir "storage" 493
       (FsForest.cons (FsTree.file "deep.txt" "a".data 420) FsForest.nil))
     (FsForest.cons (FsTree.file "keep.txt" "b".data 420) FsForest.nil)
     ["storage", "sub"] (by decide) (by decide)⟩

/-- C9 counterexample.  The claim states that manifest-rule outputs are
written with fixed mode 0644 regardless of anything else.  copyFile first
runs os.Create(dest), which creates the destination with the
process-default creation mode; the later os.WriteFile(dest, text, 0644)
then writes to an already-existing file, whose permission argument is
ignored.  With a permissive umask (default mode 0666) the go.mod output
carries mode 0666, not 0644. -/
theorem c9_cx :
    lookupFS (applyActs 0o666 []
        (copyFileActions "go.mod" ["demo", "go.mod"]
          "module github.com/galaplate/galaplate\n".data
          (ProjectOptions.mk "demo" "api" "postgres" "example.com/demo" false false)))
      ["demo", "go.mod"] =
      some (Node.fileN "module example.com/demo\n".data 0o666) ∧
    (0o666 : Nat) ≠ 0o644 := by
  decide

/-- C9 amended.  The scratch file's permission bits are never read by
copyFile, so no rule propagates them: for every default creation mode and
every input, the passthrough, manifest and source-reference outputs carry
the process-default creation mode (because os.Create pre-creates the
destination file, making os.WriteFile's 0644 argument ineffective), while
the template rule's output at the freshly created suffix-stripped path
carries fixed mode 0644, next to the empty default-mode file left at the
unstripped path. -/
theorem c9_amended (dm : Nat) (srcName : String) (dest : List String)
    (content : List Char) (opts : ProjectOptions) (hdest : dest ≠ []) :
    (ruleFired srcName = RewriteRule.passthrough →
      lookupFS (applyActs dm [] (copyFileActions srcName dest content opts)) dest =
        some (Node.fileN content dm)) ∧
    (ruleFired srcName = RewriteRule.manifest →
      lookupFS (applyActs dm [] (copyFileActions srcName dest content opts)) dest =
        some (Node.fileN (goModRewrite content opts.modName) dm)) ∧
    (ruleFired srcName = RewriteRule.sourceRef →
      lookupFS (applyActs dm [] (copyFileActions srcName dest content opts)) dest =
        some (Node.fileN (replaceModuleReferences content opts.modName) dm)) ∧
    (ruleFired srcName = RewriteRule.template → stripTemplateSegs dest ≠ dest →
      lookupFS (applyActs dm [] (copyFileActions srcName dest content opts))
          (stripTemplateSegs dest) =
        some (Node.fileN (applyTemplateReplacements content opts) 0o644) ∧
      lookupFS (applyActs dm [] (copyFileActions srcName dest content opts)) dest =
        some (Node.fileN [] dm)) := by
  have hlen0 : ∀ q : List String, q.length = dest.length →
      lookupFS (applyAct dm [] (Action.mkdirAll dest.dropLast 0o755)) q = none := by
    intro q hq
    have hnm : q ∉ touchedOf (Action.mkdirAll dest.dropLast 0o755) := by
      intro hmem
      have hle := mem_ancestors_length
        (show q ∈ ancestorsOf dest.dropLast from by simpa [touchedOf] using hmem)
      have hdl : dest.dropLast.length = dest.length - 1 := by simp
      have hpos : 0 < dest.length := List.length_pos.mpr hdest
      omega
    rw [applyAct_untouched hnm]
    rfl
  have h1dest : lookupFS (applyAct dm [] (Action.mkdirAll dest.dropLast 0o755)) dest = none :=
    hlen0 dest rfl
  have h1strip : lookupFS (applyAct dm [] (Action.mkdirAll dest.dropLast 0o755))
      (stripTemplateSegs dest) = none :=
    hlen0 _ (stripTemplateSegs_length dest)
  have hlook2 : lookupFS (setFS (applyAct dm [] (Action.mkdirAll dest.dropLast 0o755))
      dest (Node.fileN [] dm)) dest = some (Node.fileN [] dm) := by
    rw [lookupFS_setFS, if_pos rfl]
  refine ⟨?_, ?_, ?_, ?_⟩
  · intro hr
    simp only [copyFileActions, hr, applyActs]
    rw [applyAct_createF_none h1dest, applyAct_copyInto_file hlook2,
      lookupFS_setFS, if_pos rfl]
  · intro hr
    simp only [copyFileActions, hr, applyActs]
    rw [applyAct_createF_none h1dest, applyAct_writeF_file hlook2,
      lookupFS_setFS, if_pos rfl]
  · intro hr
    simp only [copyFileActions, hr, applyActs]
    rw [applyAct_createF_none h1dest, applyAct_writeF_file hlook2,
      lookupFS_setFS, if_pos rfl]
  · intro hr hne
    simp only [copyFileActions, hr, applyActs]
    have hstrip2 : lookupFS (setFS (applyAct dm [] (Action.mkdirAll dest.dropLast 0o755))
        dest (Node.fileN [] dm)) (stripTemplateSegs dest) = none := by
      rw [lookupFS_setFS, if_neg (fun hc => hne hc.symm)]
      exact h1strip
    rw [applyAct_createF_none h1dest, applyAct_writeF_none hstrip2]
    constructor
    · rw [lookupFS_setFS, if_pos rfl]
    · rw [lookupFS_setFS, if_neg hne, lookupFS_setFS, if_pos rfl]

/-- C9 amended, witness at a concrete manifest file. -/
theorem c9_amended_w :
    (["demo", "go.mod"] : List String) ≠ [] ∧
    ((ruleFired "go.mod" = RewriteRule.passthrough →
      lookupFS (applyActs 0o666 [] (copyFileActions "go.mod" ["demo", "go.mod"]
          "module github.com/galaplate/galaplate\n".data
          (ProjectOptions.mk "demo" "api" "postgres" "example.com/demo" false false)))
        ["demo", "go.mod"] =
        some (Node.fileN "module github.com/galaplate/galaplate\n".data 0o666)) ∧
    (ruleFired "go.mod" = RewriteRule.manifest →
      lookupFS (applyActs 0o666 [] (copyFileActions "go.mod" ["demo", "go.mod"]
          "module github.com/galaplate/galaplate\n".data
          (ProjectOptions.mk "demo" "api" "postgres" "example.com/demo" false false)))
        ["demo", "go.mod"] =
        some (Node.fileN (goModRewrite "module github.com/galaplate/galaplate\n".data
          (ProjectOptions.mk "demo" "api" "postgres" "example.com/demo" false false).modName)
          0o666)) ∧
    (ruleFired "go.mod" = RewriteRule.sourceRef →
      lookupFS (applyActs 0o666 [] (copyFileActions "go.mod" ["demo", "go.mod"]
          "module github.com/galaplate/galaplate\n".data
          (ProjectOptions.mk "demo" "api" "postgres" "example.com/demo" false false)))
        ["demo", "go.mod"] =
        some (Node.fileN (replaceModuleReferences
          "module github.com/galaplate/galaplate\n".data
          (ProjectOptions.mk "demo" "api" "postgres" "example.com/demo" false false).modName)
          0o666)) ∧
    (ruleFired "go.mod" = RewriteRule.template →
      stripTemplateSegs ["demo", "go.mod"] ≠ ["demo", "go.mod"] →
      lookupFS (applyActs 0o666 [] (copyFileActions "go.mod" ["demo", "go.mod"]
          "module github.com/galaplate/galaplate\n".data
          (ProjectOptions.mk "demo" "api" "postgres" "example.com/demo" false false)))
          (stripTemplateSegs ["demo", "go.mod"]) =
        some (Node.fileN (applyTemplateReplacements
          "module github.com/galaplate/galaplate\n".data
          (ProjectOptions.mk "demo" "api" "postgres" "example.com/demo" false false)) 0o644) ∧
      lookupFS (applyActs 0o666 [] (copyFileActions "go.mod" ["demo", "go.mod"]
          "module github.com/galaplate/galaplate\n".data
          (ProjectOptions.mk "demo" "api" "postgres" "example.com/demo" false false)))
        ["demo", "go.mod"] = some (Node.fileN [] 0o666))) :=
  ⟨by decide,
   c9_amended 0o666 "go.mod" ["demo", "go.mod"]
     "module github.com/galaplate/galaplate\n".data
     (ProjectOptions.mk "demo" "api" "postgres" "example.com/demo" false false) (by decide)⟩

/-- C10.  With the overwrite flag set, the create pipeline proceeds past
the pre-existence check and its destination-directory effects consist
only of directory creations and file writes: applied to any pre-existing
destination filesystem, every entry whose path no action touches keeps
its exact prior node, and no entry is ever removed — the copy merges into
the existing tree instead of replacing it. -/
theorem c10_merge (destExists : Bool) (opts : ProjectOptions) (entries : List TarEntry)
    (scratchRoot : List String) (f : FsForest) (dm : Nat) (fs : FsMap)
    (p : List String) (v : Node)
    (hforce : opts.force = true)
    (hv : lookupFS fs p = some v) :
    pipelineOk (handleNewProjectModel destExists opts entries scratchRoot f) = true ∧
    (p ∉ touchedAll (destActions opts f) →
      lookupFS (applyActs dm fs (destActions opts f)) p = some v) ∧
    (lookupFS (applyActs dm fs (destActions opts f)) p).isSome = true := by
  refine ⟨?_, ?_, ?_⟩
  · unfold handleNewProjectModel
    rw [if_neg (by
      rintro ⟨h1, h2⟩
      rw [hforce] at h2
      exact absurd h2 (by simp))]
    rfl
  · intro hp
    rw [applyActs_untouched _ _ _ hp, hv]
  · exact applyActs_keeps _ _ _ (by rw [hv]; rfl)

/-- C10 witness at a concrete pre-existing destination entry. -/
theorem c10_merge_w :
    (ProjectOptions.mk "demo" "api" "postgres" "demo" false true).force = true ∧
    lookupFS [(["other.txt"], Node.fileN "z".data 420)] ["other.txt"] =
      some (Node.fileN "z".data 420) ∧
    (pipelineOk (handleNewProjectModel true
        (ProjectOptions.mk "demo" "api" "postgres" "demo" false true) [] ["tmp"]
        (FsForest.cons (FsTree.file "keep.txt" "b".data 420) FsForest.nil)) = true ∧
    ((["other.txt"] : List String) ∉ touchedAll (destActions
        (ProjectOptions.mk "demo" "api" "postgres" "demo" false true)
        (FsForest.cons (FsTree.file "keep.txt" "b".data 420) FsForest.nil)) →
      lookupFS (applyActs 0o666 [(["other.txt"], Node.fileN "z".data 420)]
          (destActions (ProjectOptions.mk "demo" "api" "postgres" "demo" false true)
            (FsForest.cons (FsTree.file "keep.txt" "b".data 420) FsForest.nil)))
        ["other.txt"] = some (Node.fileN "z".data 420)) ∧
    (lookupFS (applyActs 0o666 [(["other.txt"], Node.fileN "z".data 420)]
        (destActions (ProjectOptions.mk "demo" "api" "postgres" "demo" false true)
          (FsForest.cons (FsTree.file "keep.txt" "b".data 420) FsForest.nil)))
      ["other.txt"]).isSome = true) :=
  ⟨by decide, by decide,
   c10_merge true (ProjectOptions.mk "demo" "api" "postgres" "demo" false true) [] ["tmp"]
     (FsForest.cons (FsTree.file "keep.txt" "b".data 420) FsForest.nil) 0o666
     [(["other.txt"], Node.fileN "z".data 420)] ["other.txt"] (Node.fileN "z".data 420)
     (by decide) (by decide)⟩

end Galaplate
